import Mathlib

/-!
Shallow embedding of `src/todos.py` (a Python 2 todo-list CLI).

Modelling decisions, each justified by the source:
* Python strings are Lean `String`s; `str.split(sep)` for a one-character
  separator is `pysplit` below (it keeps empty segments and always returns at
  least one segment, like Python).
* Python dicts appearing as modification entries / `original` snapshots are
  association lists (`Entry`) with dict update semantics (`Entry.insert`
  replaces the value of an existing key, otherwise appends).  The values that
  flow into them are strings or booleans (`Val`).
* Mutable Python lists are modelled with an explicit heap: each `Record` holds
  a reference (`modsRef`) into `Heap.cells`.  The mutable default argument
  `modifications=[]` of `Record.__init__` is a single list object created at
  function-definition time and shared by every call that does not pass
  `modifications` explicitly; it is modelled as the fixed heap cell `0`
  (`Heap.start` is the program-start heap whose only cell is that empty
  default list).  Calls that do pass a list (only `Record.load`) allocate a
  fresh cell.
* `json.dumps` / `json.loads` round-trip the dumped object exactly for the
  shapes this program writes, so `Record.write` produces the dumped object
  (`Stored`) and `Record.load` consumes it.
* `datetime.datetime.strptime(target, '%Y/%m/%d')` is modelled after CPython's
  `_strptime` regexes: `%Y` is exactly four digits, `%m` matches
  `1[0-2]|0[1-9]|[1-9]`, `%d` matches `3[01]|[12]\x5cd|0[1-9]|[1-9]`, the whole
  string must be consumed, and the subsequent `datetime` construction requires
  `1 <= year` and a day that exists in the given month and year (Gregorian
  leap rule).  Since the three captured groups contain no `/`, a full match is
  equivalent to splitting on `/` into exactly three digit-only segments with
  the value constraints spelled out in `Date.check`.
-/

namespace Todos

/-- A value stored in a modification entry or in the `original` snapshot:
the program only ever stores strings and booleans there. -/
inductive Val where
  | str : String → Val
  | bool : Bool → Val
deriving DecidableEq, Repr

/-- Python truthiness of a `Val` (`if value:` in `_value_before`). -/
def Val.truthy : Val → Bool
  | .str s => s ≠ ""
  | .bool b => b

/-- A Python dict with string keys, as an association list. -/
abbrev Entry := List (String × Val)

/-- Dict lookup, `d.get(k, None)`. -/
def Entry.get (e : Entry) (k : String) : Option Val :=
  (e.find? (fun kv => kv.1 = k)).map (fun kv => kv.2)

/-- Dict update `d[k] = v`: replace the value of an existing key, otherwise
add the binding.  (Replacing the first occurrence is observably the same as a
Python dict update: the entries built by this program never repeat a key.) -/
def Entry.insert : Entry → String → Val → Entry
  | [], k, v => [(k, v)]
  | kv :: rest, k, v =>
    if kv.1 = k then (k, v) :: rest else kv :: Entry.insert rest k v

/-- The heap of mutable Python lists of modification entries.  Cell 0 is the
shared default list of `Record.__init__`'s `modifications=[]` argument. -/
structure Heap where
  cells : List (List Entry)
deriving DecidableEq, Repr

/-- Dereference a list. -/
def Heap.get (h : Heap) (ref : Nat) : List Entry :=
  h.cells.getD ref []

/-- `lst.append(e)` on the list behind `ref`. -/
def Heap.push (h : Heap) (ref : Nat) (e : Entry) : Heap :=
  ⟨h.cells.set ref (h.cells.getD ref [] ++ [e])⟩

/-- Allocate a fresh list object. -/
def Heap.alloc (h : Heap) (l : List Entry) : Nat × Heap :=
  (h.cells.length, ⟨h.cells ++ [l]⟩)

/-- The heap at program start: the default-argument list exists and is empty. -/
def Heap.start : Heap := ⟨[[]]⟩

/-- Python `s.split(sep)` for a single-character separator: keeps empty
segments and returns `[""]` on the empty string. -/
def pysplit (sep : Char) : List Char → List (List Char)
  | [] => [[]]
  | c :: rest =>
    if c = sep then [] :: pysplit sep rest
    else
      match pysplit sep rest with
      | [] => [[c]]
      | p :: ps => (c :: p) :: ps

/-- `pysplit` on `String`s. -/
def pysplitS (sep : Char) (s : String) : List String :=
  (pysplit sep s.data).map (fun cs => String.mk cs)

/-- `class String(Rule)` of the source (renamed to avoid clashing with Lean's
`String`): `isinstance(target, str) and len(target) <= self.max_length`; the
`isinstance` test is always true here since targets are strings. -/
def StringRule.check (max_length : Nat) (target : String) : Bool :=
  decide (target.length ≤ max_length)

/-- Numeric value of a digit string. -/
def digitsVal (cs : List Char) : Nat :=
  cs.foldl (fun a c => 10 * a + (c.toNat - '0'.toNat)) 0

/-- Gregorian leap year, as used by Python's `datetime`. -/
def isLeap (y : Nat) : Bool :=
  (y % 4 == 0) && (y % 100 != 0 || y % 400 == 0)

/-- Number of days of month `m` in year `y` (Python `calendar`/`datetime`). -/
def daysInMonth (y m : Nat) : Nat :=
  if m = 2 then (if isLeap y then 29 else 28)
  else if m = 4 ∨ m = 6 ∨ m = 9 ∨ m = 11 then 30
  else 31

/-- `class Date(Rule)`: `datetime.datetime.strptime(target, '%Y/%m/%d')`
succeeds (see the header comment for the reduction of CPython's `_strptime`
regex to this split-based form).  Note `%m` and `%d` also accept one-digit
months and days. -/
def Date.check (target : String) : Bool :=
  match pysplitS '/' target with
  | [ys, ms, ds] =>
    let y := digitsVal ys.data
    let m := digitsVal ms.data
    let d := digitsVal ds.data
    ys.data.all Char.isDigit && (ys.length == 4) &&
    ms.data.all Char.isDigit && (ms.length == 1 || ms.length == 2) &&
    ds.data.all Char.isDigit && (ds.length == 1 || ds.length == 2) &&
    decide (1 ≤ m) && decide (m ≤ 12) &&
    decide (1 ≤ d) && decide (d ≤ daysInMonth y m) &&
    decide (1 ≤ y)
  | _ => false

/-- `class Priority(Rule)`: `self.types = ['minor', 'major']`. -/
def Priority.types : List String := ["minor", "major"]

/-- `target in self.types`. -/
def Priority.check (target : String) : Bool :=
  Priority.types.contains target

/-- The keys of the class-level `Record.schema` dict (membership and count are
all the program uses, so their order is irrelevant). -/
def schemaDictKeys : List String := ["ordered_keys", "name", "due_date", "priority"]

/-- `Record.schema['ordered_keys']`. -/
def ordered_keys : List String := ["name", "due_date", "priority"]

/-- `cls.schema[key].check(field)` for the three field keys. -/
def schemaRuleCheck (key : String) (field : String) : Bool :=
  if key = "name" then StringRule.check 20 field
  else if key = "due_date" then Date.check field
  else if key = "priority" then Priority.check field
  else false

/-- One todo record.  `modsRef` is the heap reference held by
`self.modifications`; `ordered_keys_attr` is the instance attribute that
`setattr(self, 'ordered_keys', v)` would create (reachable through `modify`,
since `'ordered_keys'` is a schema dict key accepted by `check`). -/
structure Record where
  name : String
  due_date : String
  priority : String
  done : Bool
  modsRef : Nat
  original : Entry
  ordered_keys_attr : Option String
deriving DecidableEq, Repr

/-- The dict literal `__init__` builds when `original` is absent or falsy. -/
def Record.mkOriginal (name due_date priority : String) (done : Bool) : Entry :=
  [("name", Val.str name), ("due_date", Val.str due_date),
   ("priority", Val.str priority), ("done", Val.bool done)]

/-- `Record.__init__`.  `modifications = none` models calling without the
argument, which binds the shared default list (heap cell 0); `some l` models
passing a list object, which is stored as-is (modelled by allocating a cell
holding it, as the only such caller `load` passes a fresh list from
`json.loads`).  `original` is recomputed when the argument is `None` or an
empty (falsy) dict: `... if not original else original`. -/
def Record.init (name due_date priority : String) (done : Bool)
    (modifications : Option (List Entry)) (original : Option Entry) (h : Heap) :
    Record × Heap :=
  let orig : Entry :=
    match original with
    | none => Record.mkOriginal name due_date priority done
    | some [] => Record.mkOriginal name due_date priority done
    | some e => e
  match modifications with
  | none =>
    ({ name := name, due_date := due_date, priority := priority, done := done,
       modsRef := 0, original := orig, ordered_keys_attr := none }, h)
  | some l =>
    let (ref, h2) := Heap.alloc h l
    ({ name := name, due_date := due_date, priority := priority, done := done,
       modsRef := ref, original := orig, ordered_keys_attr := none }, h2)

/-- `Record.mark_done`. -/
def Record.mark_done (rec : Record) (h : Heap) : Record × Heap :=
  ({ rec with done := true }, h.push rec.modsRef [("done", Val.bool true)])

/-- `Record.check` (a classmethod): split on `:` into exactly two parts and
require the key to be a schema dict key. -/
def Record.check (item : String) : Option (String × String) :=
  match pysplitS ':' item with
  | [key, value] => if schemaDictKeys.contains key then some (key, value) else none
  | _ => none

/-- `setattr(self, key, value)` for the keys `Record.check` can return
(exactly the schema dict keys; no other key reaches `setattr` in `modify`). -/
def Record.setattrChecked (rec : Record) (k v : String) : Record :=
  if k = "name" then { rec with name := v }
  else if k = "due_date" then { rec with due_date := v }
  else if k = "priority" then { rec with priority := v }
  else if k = "ordered_keys" then { rec with ordered_keys_attr := some v }
  else rec

/-- One iteration of the loop in `Record.modify`: accumulate the accepted
pair into the `_modifications` dict and set the attribute. -/
def Record.modStep (acc : Entry × Record) (m : String) : Entry × Record :=
  match Record.check m with
  | some kv => (Entry.insert acc.1 kv.1 (Val.str kv.2), Record.setattrChecked acc.2 kv.1 kv.2)
  | none => acc

/-- `Record.modify`: build `_modifications` from the accepted specs, set the
corresponding attributes, and append the (possibly empty) dict to
`self.modifications`. -/
def Record.modify (rec : Record) (mods : List String) (h : Heap) : Record × Heap :=
  let er := mods.foldl Record.modStep ([], rec)
  (er.2, h.push rec.modsRef er.1)

/-- `Record._value_before(key, index)`: the `Nat` argument is `index + 1`
(the number of entries `self.modifications[index] .. self.modifications[0]`
still to scan; `0` is the `index = -1` base case).  A falsy value is skipped
(`if value:`); when no truthy value is found the original snapshot is
consulted (`self.original[key]`; `none` models the `KeyError` that a missing
key would raise). -/
def Record.value_before (mods : List Entry) (orig : Entry) (key : String) :
    Nat → Option Val
  | 0 => Entry.get orig key
  | n + 1 =>
    match Entry.get (mods.getD n []) key with
    | some v => if Val.truthy v then some v else Record.value_before mods orig key n
    | none => Record.value_before mods orig key n

/-- `Record._print_changes` as the list of `(key, before, after)` triples it
prints, in print order: entries are visited newest to oldest, and within the
entry `self.modifications[i]` each binding produces one line with
`before = _value_before(key, i - 1)`. -/
def Record.print_changes (mods : List Entry) (orig : Entry) :
    List (String × Option Val × Val) :=
  ((List.range mods.length).reverse.map (fun i =>
    (mods.getD i []).map
      (fun kv => (kv.1, Record.value_before mods orig kv.1 i, kv.2)))).flatten

/-- The object `Record.write` passes to `json.dumps`, which `Record.load`
receives back from `json.loads` (the JSON line round-trips it exactly). -/
structure Stored where
  name : String
  due_date : String
  priority : String
  done : Bool
  original : Entry
  modifications : List Entry
deriving DecidableEq, Repr

/-- `Record.write`. -/
def Record.write (rec : Record) (h : Heap) : Stored :=
  ⟨rec.name, rec.due_date, rec.priority, rec.done, rec.original, Heap.get h rec.modsRef⟩

/-- `Record.load`: all six stored values are passed positionally to
`Record.__init__`. -/
def Record.load (st : Stored) (h : Heap) : Record × Heap :=
  Record.init st.name st.due_date st.priority st.done
    (some st.modifications) (some st.original) h

/-- The loop of `Record.parse` after the length guard: check each segment, in
`ordered_keys` order, against its rule, stopping at the first failure. -/
def parseFields : List (String × String) → Except String (List (String × String))
  | [] => .ok []
  | (key, field) :: rest =>
    if schemaRuleCheck key field then
      match parseFields rest with
      | .ok ps => .ok ((key, field) :: ps)
      | .error e => .error e
    else .error ("Rule check failed on field: " ++ field)

/-- `parsed[k]` for the assoc list `parseFields` builds (every `ordered_keys`
key is present when it succeeds, so the default is never used). -/
def lookupStr (ps : List (String × String)) (k : String) : String :=
  ((ps.find? (fun kv => kv.1 = k)).map (fun kv => kv.2)).getD ""

/-- `Record.parse`: split on `;`, require `len(schema.keys()) - 1 = 3`
segments, check them in `ordered_keys` order, then construct a `Record` with
the default `done`, `modifications` and `original` arguments. -/
def Record.parse (item : String) (h : Heap) : Except String (Record × Heap) :=
  let splitted := pysplitS ';' item
  if splitted.length ≠ schemaDictKeys.length - 1 then
    .error ("Item does not fit schema: " ++ item)
  else
    match parseFields (ordered_keys.zip splitted) with
    | .error e => .error e
    | .ok parsed =>
      .ok (Record.init (lookupStr parsed "name") (lookupStr parsed "due_date")
        (lookupStr parsed "priority") false none none h)

/-- `Records._split`: `max_len = none` models passing `None`; a `max_len` of
`0` is falsy in Python and also returns the segments unconditionally. -/
def Records.split (item : String) (max_len : Option Nat) : Option (List String) :=
  let splitted := pysplitS ';' item
  match max_len with
  | none => some splitted
  | some 0 => some splitted
  | some m => if splitted.length ≤ m then some splitted else none

/-- `Records.find`: first record with the given name. -/
def Records.find (rs : List Record) (name : String) : Option Record :=
  rs.find? (fun rec => rec.name = name)

/-- `self.records.remove(record)` where `record = self.find(name)`: remove
the first record carrying `name`; identity when there is none.  (Each record
in the list is a distinct object appended by `add`, so Python's
identity-based `list.remove` removes exactly the found first match.) -/
def Records.removeFirst : List Record → String → List Record
  | [], _ => []
  | rec :: rest, name =>
    if rec.name = name then rest else rec :: Records.removeFirst rest name

/-- Find the first record with the given name and mutate it in place; the
no-match case is the `if record:` no-op. -/
def Records.updateFirst (name : String) (f : Record → Heap → Record × Heap) :
    List Record → Heap → List Record × Heap
  | [], h => ([], h)
  | rec :: rest, h =>
    if rec.name = name then
      let rh := f rec h
      (rh.1 :: rest, rh.2)
    else
      let rh := Records.updateFirst name f rest h
      (rec :: rh.1, rh.2)

/-- `Records.remove_all`. -/
def Records.remove_all (rs : List Record) (items : List String) : List Record :=
  items.foldl (fun acc item =>
    match Records.split item (some 1) with
    | none => acc
    | some parts =>
      match Records.find acc (parts.headD "") with
      | none => acc
      | some _ => Records.removeFirst acc (parts.headD "")) rs

/-- `Records.mark_done_all`. -/
def Records.mark_done_all (st : List Record × Heap) (items : List String) :
    List Record × Heap :=
  items.foldl (fun st item =>
    match Records.split item (some 1) with
    | none => st
    | some parts => Records.updateFirst (parts.headD "") Record.mark_done st.1 st.2) st

/-- `Records.modify_all`: `_split` without `max_len` always yields the
segments, the first is the name, the rest are the field specs. -/
def Records.modify_all (st : List Record × Heap) (items : List String) :
    List Record × Heap :=
  items.foldl (fun st item =>
    let parts := (Records.split item none).getD []
    Records.updateFirst (parts.headD "")
      (fun rec h => Record.modify rec (parts.drop 1) h) st.1 st.2) st

/-- `Records.add_all`: parse and append each line in order; a `SchemaError`
propagates, leaving the records added so far in place and the remaining lines
unprocessed.  The returned `Option String` is the escaped exception. -/
def Records.add_all (rs : List Record) (h : Heap) :
    List String → (List Record × Heap) × Option String
  | [] => ((rs, h), none)
  | item :: rest =>
    match Record.parse item h with
    | .error e => ((rs, h), some e)
    | .ok rh => Records.add_all (rs ++ [rh.1]) rh.2 rest

/-- The record-mutating operations a caller can perform after construction:
the collection-level bulk operations, plus direct `mark_done` / `modify`
calls on the record at a given position. -/
inductive Op where
  | removeAll (items : List String)
  | markDoneAll (items : List String)
  | modifyAll (items : List String)
  | markDoneAt (i : Nat)
  | modifyAt (i : Nat) (specs : List String)

/-- Mutate the record at position `i` in place (no-op out of range; direct
calls are only ever made on records that exist). -/
def mutAt (rs : List Record) (h : Heap) (i : Nat)
    (f : Record → Heap → Record × Heap) : List Record × Heap :=
  match rs[i]? with
  | none => (rs, h)
  | some rec =>
    let rh := f rec h
    (rs.set i rh.1, rh.2)

/-- Apply one operation to the collection state. -/
def applyOp (st : List Record × Heap) : Op → List Record × Heap
  | .removeAll items => (Records.remove_all st.1 items, st.2)
  | .markDoneAll items => Records.mark_done_all st items
  | .modifyAll items => Records.modify_all st items
  | .markDoneAt i => mutAt st.1 st.2 i Record.mark_done
  | .modifyAt i specs => mutAt st.1 st.2 i (fun rec h => Record.modify rec specs h)

/-- Apply a sequence of operations. -/
def applyOps (st : List Record × Heap) (ops : List Op) : List Record × Heap :=
  ops.foldl applyOp st

/-! ### Properties of `pysplit` -/

theorem pysplit_ne_nil (sep : Char) (cs : List Char) : pysplit sep cs ≠ [] := by
  induction cs with
  | nil => simp [pysplit]
  | cons c rest ih =>
    simp only [pysplit]
    split
    · simp
    · split <;> simp_all

/-- Rejoining the segments with the separator gives back the input. -/
def joinSep (sep : Char) : List (List Char) → List Char
  | [] => []
  | [p] => p
  | p :: ps => p ++ sep :: joinSep sep ps

theorem pysplit_join (sep : Char) (cs : List Char) :
    joinSep sep (pysplit sep cs) = cs := by
  induction cs with
  | nil => simp [pysplit, joinSep]
  | cons c rest ih =>
    simp only [pysplit]
    split
    · subst c
      cases hps : pysplit sep rest with
      | nil => exact absurd hps (pysplit_ne_nil sep rest)
      | cons p ps =>
        rw [hps] at ih
        cases ps <;> simp_all [joinSep]
    · cases hps : pysplit sep rest with
      | nil => exact absurd hps (pysplit_ne_nil sep rest)
      | cons p ps =>
        rw [hps] at ih
        cases ps <;> simp_all [joinSep]

theorem pysplit_sep_not_mem (sep : Char) (cs : List Char) :
    ∀ p ∈ pysplit sep cs, sep ∉ p := by
  induction cs with
  | nil => simp [pysplit]
  | cons c rest ih =>
    simp only [pysplit]
    split
    · intro p hp
      rcases List.mem_cons.mp hp with h | h
      · simp [h]
      · exact ih p h
    · rename_i hc
      cases hps : pysplit sep rest with
      | nil => exact absurd hps (pysplit_ne_nil sep rest)
      | cons q qs =>
        rw [hps] at ih
        intro p hp
        rcases List.mem_cons.mp hp with h | h
        · subst h
          intro hmem
          rcases List.mem_cons.mp hmem with h | h
          · exact hc h.symm
          · exact ih q (List.mem_cons_self q qs) h
        · exact ih p (List.mem_cons_of_mem q h)

theorem pysplit_of_not_mem {sep : Char} {cs : List Char} (hs : sep ∉ cs) :
    pysplit sep cs = [cs] := by
  induction cs with
  | nil => simp [pysplit]
  | cons c rest ih =>
    simp only [pysplit]
    rw [if_neg (by simp at hs; exact fun h => hs.1 h.symm)]
    rw [ih (by simp at hs; exact hs.2)]

theorem pysplit_append {sep : Char} {a : List Char} (rest : List Char)
    (ha : sep ∉ a) : pysplit sep (a ++ sep :: rest) = a :: pysplit sep rest := by
  induction a with
  | nil => simp [pysplit]
  | cons x a' ih =>
    have ha2 : ¬ (sep = x ∨ sep ∈ a') := by simpa using ha
    have hx : ¬ (x = sep) := fun h => ha2 (Or.inl h.symm)
    have ha' : sep ∉ a' := fun h => ha2 (Or.inr h)
    show pysplit sep (x :: (a' ++ sep :: rest)) = (x :: a') :: pysplit sep rest
    simp only [pysplit, if_neg hx, ih ha']

/-! ### Characterization of `Record.parse` -/

theorem parse_of_badlen (item : String) (h : Heap)
    (hlen : (pysplitS ';' item).length ≠ 3) :
    Record.parse item h = .error ("Item does not fit schema: " ++ item) := by
  unfold Record.parse
  simp [schemaDictKeys, hlen]

theorem parse_of_split3 (item : String) (h : Heap) (n d p : String)
    (hsp : pysplitS ';' item = [n, d, p]) :
    Record.parse item h =
      if StringRule.check 20 n = false then
        .error ("Rule check failed on field: " ++ n)
      else if Date.check d = false then
        .error ("Rule check failed on field: " ++ d)
      else if Priority.check p = false then
        .error ("Rule check failed on field: " ++ p)
      else .ok (Record.init n d p false none none h) := by
  unfold Record.parse
  rw [hsp]
  cases hn : StringRule.check 20 n with
  | false => simp [schemaDictKeys, ordered_keys, parseFields, schemaRuleCheck, hn]
  | true =>
    cases hd : Date.check d with
    | false => simp [schemaDictKeys, ordered_keys, parseFields, schemaRuleCheck, hn, hd]
    | true =>
      cases hp : Priority.check p with
      | false =>
        simp [schemaDictKeys, ordered_keys, parseFields, schemaRuleCheck, hn, hd, hp]
      | true =>
        simp [schemaDictKeys, ordered_keys, parseFields, schemaRuleCheck, hn, hd, hp,
          lookupStr, List.find?]

/-- C2: `parse(line)` raises `SchemaError` whenever splitting `line` on `;`
yields a number of segments other than 3, and otherwise checks the segments in
the fixed order name, due_date, priority against their rules, raising
`SchemaError` on the first failing segment; in particular
`parse("short name;2024/01/15;major")` succeeds,
`parse("bad;2024/13/40;major")` fails on the date,
`parse("n;2024/01/01;urgent")` fails on the priority, and `parse("a;b")` fails
on the field count. -/
theorem parse_error_behavior :
    (∀ item h, (pysplitS ';' item).length ≠ 3 →
      Record.parse item h = .error ("Item does not fit schema: " ++ item)) ∧
    (∀ item h n d p, pysplitS ';' item = [n, d, p] →
      Record.parse item h =
        if StringRule.check 20 n = false then
          .error ("Rule check failed on field: " ++ n)
        else if Date.check d = false then
          .error ("Rule check failed on field: " ++ d)
        else if Priority.check p = false then
          .error ("Rule check failed on field: " ++ p)
        else .ok (Record.init n d p false none none h)) ∧
    (Record.parse "short name;2024/01/15;major" Heap.start).isOk = true ∧
    Record.parse "bad;2024/13/40;major" Heap.start =
      .error "Rule check failed on field: 2024/13/40" ∧
    Record.parse "n;2024/01/01;urgent" Heap.start =
      .error "Rule check failed on field: urgent" ∧
    Record.parse "a;b" Heap.start = .error "Item does not fit schema: a;b" :=
  ⟨fun item h hlen => parse_of_badlen item h hlen,
   fun item h n d p hsp => parse_of_split3 item h n d p hsp,
   rfl, rfl, rfl, rfl⟩

/-- Witness for C2: the two general clauses evaluated at concrete inputs. -/
theorem parse_error_behavior_witness :
    Record.parse "a;b;c;d" Heap.start = .error "Item does not fit schema: a;b;c;d" ∧
    Record.parse "nm;2024/05/06;minor" Heap.start =
      (if StringRule.check 20 "nm" = false then
        .error ("Rule check failed on field: " ++ "nm")
      else if Date.check "2024/05/06" = false then
        .error ("Rule check failed on field: " ++ "2024/05/06")
      else if Priority.check "minor" = false then
        .error ("Rule check failed on field: " ++ "minor")
      else .ok (Record.init "nm" "2024/05/06" "minor" false none none Heap.start)) :=
  ⟨parse_error_behavior.1 "a;b;c;d" Heap.start (by decide),
   parse_error_behavior.2.1 "nm;2024/05/06;minor" Heap.start "nm" "2024/05/06" "minor"
     (by decide)⟩

/-- C1: for every `name;due_date;priority` line whose three fields pass their
rules, `parse` succeeds, and serializing the parsed record with `write` then
deserializing with `load` yields a record whose `name`, `due_date`, `priority`
and `done` fields equal those of the parsed record exactly. -/
theorem parse_write_load_roundtrip (line : String) (h h2 : Heap)
    (n d p : String) (hsp : pysplitS ';' line = [n, d, p])
    (hn : StringRule.check 20 n = true) (hd : Date.check d = true)
    (hp : Priority.check p = true) :
    ∃ rec : Record, Record.parse line h = .ok (rec, h) ∧
      (Record.load (Record.write rec h) h2).1.name = rec.name ∧
      (Record.load (Record.write rec h) h2).1.due_date = rec.due_date ∧
      (Record.load (Record.write rec h) h2).1.priority = rec.priority ∧
      (Record.load (Record.write rec h) h2).1.done = rec.done := by
  refine ⟨(Record.init n d p false none none h).1, ?_, rfl, rfl, rfl, rfl⟩
  rw [parse_of_split3 line h n d p hsp, hn, hd, hp]
  simp [Record.init]

/-- Witness for C1 at a concrete valid line. -/
theorem parse_write_load_roundtrip_witness :
    ∃ rec : Record,
      Record.parse "task a;2024/03/05;minor" Heap.start = .ok (rec, Heap.start) ∧
      (Record.load (Record.write rec Heap.start) Heap.start).1.name = rec.name ∧
      (Record.load (Record.write rec Heap.start) Heap.start).1.due_date = rec.due_date ∧
      (Record.load (Record.write rec Heap.start) Heap.start).1.priority = rec.priority ∧
      (Record.load (Record.write rec Heap.start) Heap.start).1.done = rec.done :=
  parse_write_load_roundtrip "task a;2024/03/05;minor" Heap.start Heap.start
    "task a" "2024/03/05" "minor" (by decide) (by decide) (by decide) (by decide)

/-! ### The `modify` loop -/

/-- The final value of the attribute named `k` after the `modify` loop, when
it starts at `cur`: the last accepted value for `k`, if any. -/
def attrAfter (k : String) (specs : List String) (cur : String) : String :=
  specs.foldl (fun a m =>
    match Record.check m with
    | some kv => if kv.1 = k then kv.2 else a
    | none => a) cur

/-- The value the `_modifications` dict ends up holding for key `k`, when the
dict starts out holding `init` for it (`none` = key absent). -/
def lastAcc (k : String) (specs : List String) (init : Option Val) : Option Val :=
  specs.foldl (fun acc m =>
    match Record.check m with
    | some kv => if kv.1 = k then some (Val.str kv.2) else acc
    | none => acc) init

theorem Entry.get_insert (e : Entry) (k k' : String) (v : Val) :
    Entry.get (Entry.insert e k v) k' = if k = k' then some v else Entry.get e k' := by
  induction e with
  | nil => by_cases hk : k = k' <;> simp [Entry.insert, Entry.get, List.find?, hk]
  | cons kv rest ih =>
    by_cases h1 : kv.1 = k
    · by_cases hk : k = k'
      · simp [Entry.insert, Entry.get, List.find?, h1, hk]
      · have h2 : ¬ (kv.1 = k') := by rw [h1]; exact hk
        simp [Entry.insert, Entry.get, List.find?, h1, hk, h2]
    · by_cases h2 : kv.1 = k'
      · have hk : ¬ (k = k') := fun h => h1 (by rw [h, h2])
        have hk2 : ¬ (k' = k) := fun h => hk h.symm
        simp [Entry.insert, Entry.get, List.find?, h1, h2, hk, hk2]
      · simp only [Entry.insert, if_neg h1]
        simp [Entry.get, List.find?, h2] at ih ⊢
        exact ih

theorem setattrChecked_fields (rec : Record) (k v : String) :
    (Record.setattrChecked rec k v).done = rec.done ∧
    (Record.setattrChecked rec k v).modsRef = rec.modsRef ∧
    (Record.setattrChecked rec k v).original = rec.original ∧
    (Record.setattrChecked rec k v).name = (if k = "name" then v else rec.name) ∧
    (Record.setattrChecked rec k v).due_date = (if k = "due_date" then v else rec.due_date) ∧
    (Record.setattrChecked rec k v).priority = (if k = "priority" then v else rec.priority) := by
  unfold Record.setattrChecked
  split_ifs <;> simp_all

/-- Everything the `modify` loop does to the record and to the accumulated
`_modifications` dict, by induction over the spec list. -/
theorem modFold_spec (specs : List String) : ∀ (e : Entry) (rec : Record),
    ((specs.foldl Record.modStep (e, rec)).2.done = rec.done ∧
     (specs.foldl Record.modStep (e, rec)).2.modsRef = rec.modsRef ∧
     (specs.foldl Record.modStep (e, rec)).2.original = rec.original) ∧
    ((specs.foldl Record.modStep (e, rec)).2.name = attrAfter "name" specs rec.name ∧
     (specs.foldl Record.modStep (e, rec)).2.due_date = attrAfter "due_date" specs rec.due_date ∧
     (specs.foldl Record.modStep (e, rec)).2.priority = attrAfter "priority" specs rec.priority) ∧
    (∀ k, Entry.get (specs.foldl Record.modStep (e, rec)).1 k =
      lastAcc k specs (Entry.get e k)) := by
  induction specs with
  | nil => intro e rec; simp [attrAfter, lastAcc]
  | cons m rest ih =>
    intro e rec
    cases hc : Record.check m with
    | none =>
      have h := ih e rec
      simpa [Record.modStep, hc, attrAfter, lastAcc] using h
    | some kv =>
      have h := ih (Entry.insert e kv.1 (Val.str kv.2)) (Record.setattrChecked rec kv.1 kv.2)
      obtain ⟨⟨hd1, hd2, hd3⟩, ⟨ha1, ha2, ha3⟩, hg⟩ := h
      obtain ⟨hs1, hs2, hs3, hs4, hs5, hs6⟩ := setattrChecked_fields rec kv.1 kv.2
      refine ⟨⟨?_, ?_, ?_⟩, ⟨?_, ?_, ?_⟩, ?_⟩
      · simpa [Record.modStep, hc, hs1] using hd1
      · simpa [Record.modStep, hc, hs2] using hd2
      · simpa [Record.modStep, hc, hs3] using hd3
      · simp only [List.foldl_cons, Record.modStep, hc, attrAfter] at ha1 ⊢
        rw [ha1, hs4]
      · simp only [List.foldl_cons, Record.modStep, hc, attrAfter] at ha2 ⊢
        rw [ha2, hs5]
      · simp only [List.foldl_cons, Record.modStep, hc, attrAfter] at ha3 ⊢
        rw [ha3, hs6]
      · intro k
        simp only [List.foldl_cons, Record.modStep, hc, lastAcc] at hg ⊢
        rw [hg k, Entry.get_insert]

/-! ### C4: the shared mutable default `modifications` list -/

/-- The record `parse("a;2024/01/01;minor")` constructs at program start. -/
def parsedA : Record :=
  { name := "a", due_date := "2024/01/01", priority := "minor", done := false,
    modsRef := 0, original := Record.mkOriginal "a" "2024/01/01" "minor" false,
    ordered_keys_attr := none }

/-- The record `parse("b;2024/01/02;major")` constructs at program start. -/
def parsedB : Record :=
  { name := "b", due_date := "2024/01/02", priority := "major", done := false,
    modsRef := 0, original := Record.mkOriginal "b" "2024/01/02" "major" false,
    ordered_keys_attr := none }

/-- The record `parse("c;2024/01/03;minor")` constructs later in the run. -/
def parsedC : Record :=
  { name := "c", due_date := "2024/01/03", priority := "minor", done := false,
    modsRef := 0, original := Record.mkOriginal "c" "2024/01/03" "minor" false,
    ordered_keys_attr := none }

/-- C4 is violated by the code (the mutable-default-argument bug): records
built by `parse` all bind the one default `modifications` list created at
function-definition time, so `mark_done` on the first parsed record appends
`{done: true}` to the second parsed record's log as well, and a record parsed
after that operation starts with that same non-empty log instead of an empty
private one. -/
theorem shared_default_modifications_bug :
    Record.parse "a;2024/01/01;minor" Heap.start = .ok (parsedA, Heap.start) ∧
    Record.parse "b;2024/01/02;major" Heap.start = .ok (parsedB, Heap.start) ∧
    parsedA.modsRef = parsedB.modsRef ∧
    Heap.get Heap.start parsedB.modsRef = [] ∧
    Heap.get (Record.mark_done parsedA Heap.start).2 parsedB.modsRef =
      [[("done", Val.bool true)]] ∧
    Record.parse "c;2024/01/03;minor" (Record.mark_done parsedA Heap.start).2 =
      .ok (parsedC, (Record.mark_done parsedA Heap.start).2) ∧
    Heap.get (Record.mark_done parsedA Heap.start).2 parsedC.modsRef =
      [[("done", Val.bool true)]] :=
  ⟨rfl, rfl, rfl, rfl, rfl, rfl, rfl⟩

/-! ### C7: immutability of the `original` snapshot -/

/-- Any record built by `__init__` has a non-empty `original` snapshot (it is
either recomputed as the four-key dict or taken from a given non-empty one). -/
theorem init_original_ne_nil (name due_date priority : String) (done : Bool)
    (mods : Option (List Entry)) (orig : Option Entry) (h : Heap) :
    (Record.init name due_date priority done mods orig h).1.original ≠ [] := by
  rcases orig with _ | (_ | ⟨kv, e⟩) <;> rcases mods with _ | l <;>
    simp [Record.init, Record.mkOriginal, Heap.alloc]

/-- Loading back the persisted line of a record whose snapshot is non-empty
(as every constructed record's is) keeps `original` verbatim. -/
theorem load_write_original (rec : Record) (h1 h2 : Heap) (hne : rec.original ≠ []) :
    ((Record.load (Record.write rec h1) h2).1).original = rec.original := by
  cases hO : rec.original with
  | nil => exact absurd hO hne
  | cons kv rest => simp [Record.load, Record.write, Record.init, hO, Heap.alloc]

/-- C7: the `original` snapshot is set once at construction and never mutated
by `mark_done` or `modify`; and loading back the persisted line of any
constructed record takes `original` verbatim from the stored value. -/
theorem original_immutable :
    (∀ rec h, ((Record.mark_done rec h).1).original = rec.original) ∧
    (∀ rec specs h, ((Record.modify rec specs h).1).original = rec.original) ∧
    (∀ name due_date priority done mods orig h h1 h2,
      ((Record.load
          (Record.write (Record.init name due_date priority done mods orig h).1 h1)
          h2).1).original =
        (Record.init name due_date priority done mods orig h).1.original) :=
  ⟨fun rec h => rfl, fun rec specs h => ((modFold_spec specs [] rec).1.2.2),
   fun name due_date priority done mods orig h h1 h2 =>
     load_write_original _ h1 h2 (init_original_ne_nil name due_date priority done mods orig h)⟩

theorem Heap.get_push (h : Heap) (ref : Nat) (e : Entry) (href : ref < h.cells.length) :
    Heap.get (h.push ref e) ref = Heap.get h ref ++ [e] := by
  simp [Heap.get, Heap.push, List.getD, List.getElem?_set_self', href]

theorem modFold_all_rejected : ∀ (specs : List String),
    (∀ m ∈ specs, Record.check m = none) →
    ∀ (acc : Entry × Record), specs.foldl Record.modStep acc = acc
  | [], _, _ => rfl
  | m :: rest, hall, acc => by
    have hm : Record.check m = none := hall m (List.mem_cons_self m rest)
    simp only [List.foldl_cons, Record.modStep, hm]
    exact modFold_all_rejected rest (fun m' hm' => hall m' (List.mem_cons_of_mem _ hm')) acc

/-- C3: one call to `modify` appends exactly one entry to the record's
modifications log — even an empty one — where the entry maps a key to the last
value accepted for it by `check` and holds no other key; exactly the accepted
keys are set as attributes (rejected specs change nothing; `done`, `original`
and the log binding are untouched).  In particular
`modify(["priority:major", "bogus:x"])` changes only `priority` and appends
the single entry `{priority: major}`. -/
theorem modify_appends_one_entry :
    (∀ rec specs h, rec.modsRef < h.cells.length → ∃ e : Entry,
      Heap.get (Record.modify rec specs h).2 rec.modsRef =
        Heap.get h rec.modsRef ++ [e] ∧
      (∀ k, Entry.get e k = lastAcc k specs none) ∧
      ((∀ m ∈ specs, Record.check m = none) → e = []) ∧
      (Record.modify rec specs h).1.name = attrAfter "name" specs rec.name ∧
      (Record.modify rec specs h).1.due_date = attrAfter "due_date" specs rec.due_date ∧
      (Record.modify rec specs h).1.priority = attrAfter "priority" specs rec.priority ∧
      (Record.modify rec specs h).1.done = rec.done ∧
      (Record.modify rec specs h).1.original = rec.original ∧
      (Record.modify rec specs h).1.modsRef = rec.modsRef) ∧
    (∀ rec h, rec.modsRef < h.cells.length →
      Heap.get (Record.modify rec ["priority:major", "bogus:x"] h).2 rec.modsRef =
        Heap.get h rec.modsRef ++ [[("priority", Val.str "major")]] ∧
      (Record.modify rec ["priority:major", "bogus:x"] h).1.priority = "major" ∧
      (Record.modify rec ["priority:major", "bogus:x"] h).1.name = rec.name ∧
      (Record.modify rec ["priority:major", "bogus:x"] h).1.due_date = rec.due_date ∧
      (Record.modify rec ["priority:major", "bogus:x"] h).1.done = rec.done) := by
  constructor
  · intro rec specs h href
    obtain ⟨⟨hd1, hd2, hd3⟩, ⟨ha1, ha2, ha3⟩, hg⟩ := modFold_spec specs [] rec
    refine ⟨(specs.foldl Record.modStep ([], rec)).1, ?_, ?_, ?_, ha1, ha2, ha3, hd1, hd3, hd2⟩
    · simpa [Record.modify] using Heap.get_push h rec.modsRef _ href
    · intro k
      simpa [Entry.get] using hg k
    · intro hall
      rw [modFold_all_rejected specs hall ([], rec)]
  · intro rec h href
    have hc1 : Record.check "priority:major" = some ("priority", "major") := rfl
    have hc2 : Record.check "bogus:x" = none := rfl
    have hlog := Heap.get_push h rec.modsRef [("priority", Val.str "major")] href
    refine ⟨?_, ?_, ?_, ?_, ?_⟩ <;>
      simp [Record.modify, Record.modStep, hc1, hc2, Record.setattrChecked,
        Entry.insert, hlog]

/-- Witness for C3 on a concrete record, heap and spec list. -/
theorem modify_appends_one_entry_witness :
    (∃ e : Entry,
      Heap.get (Record.modify parsedA ["name:task b", "name", "x:y"] Heap.start).2
          parsedA.modsRef =
        Heap.get Heap.start parsedA.modsRef ++ [e] ∧
      (∀ k, Entry.get e k = lastAcc k ["name:task b", "name", "x:y"] none) ∧
      ((∀ m ∈ ["name:task b", "name", "x:y"], Record.check m = none) → e = []) ∧
      (Record.modify parsedA ["name:task b", "name", "x:y"] Heap.start).1.name =
        attrAfter "name" ["name:task b", "name", "x:y"] parsedA.name ∧
      (Record.modify parsedA ["name:task b", "name", "x:y"] Heap.start).1.due_date =
        attrAfter "due_date" ["name:task b", "name", "x:y"] parsedA.due_date ∧
      (Record.modify parsedA ["name:task b", "name", "x:y"] Heap.start).1.priority =
        attrAfter "priority" ["name:task b", "name", "x:y"] parsedA.priority ∧
      (Record.modify parsedA ["name:task b", "name", "x:y"] Heap.start).1.done =
        parsedA.done ∧
      (Record.modify parsedA ["name:task b", "name", "x:y"] Heap.start).1.original =
        parsedA.original ∧
      (Record.modify parsedA ["name:task b", "name", "x:y"] Heap.start).1.modsRef =
        parsedA.modsRef) ∧
    (Heap.get (Record.modify parsedB ["priority:major", "bogus:x"] Heap.start).2
        parsedB.modsRef =
      Heap.get Heap.start parsedB.modsRef ++ [[("priority", Val.str "major")]] ∧
     (Record.modify parsedB ["priority:major", "bogus:x"] Heap.start).1.priority = "major" ∧
     (Record.modify parsedB ["priority:major", "bogus:x"] Heap.start).1.name = parsedB.name ∧
     (Record.modify parsedB ["priority:major", "bogus:x"] Heap.start).1.due_date =
       parsedB.due_date ∧
     (Record.modify parsedB ["priority:major", "bogus:x"] Heap.start).1.done =
       parsedB.done) :=
  ⟨modify_appends_one_entry.1 parsedA ["name:task b", "name", "x:y"] Heap.start (by decide),
   modify_appends_one_entry.2 parsedB Heap.start (by decide)⟩

/-! ### C5: `done` is monotonic -/

/-- Pointwise simulation between a record list and its successor state: each
surviving record keeps `done` once it is `true`; records may be dropped but
never appear from nowhere or get reordered. -/
inductive DoneMono : List Record → List Record → Prop
  | nil : DoneMono [] []
  | keep {rec rec' : Record} {l l' : List Record} :
      (rec.done = true → rec'.done = true) → DoneMono l l' →
      DoneMono (rec :: l) (rec' :: l')
  | drop {rec : Record} {l l' : List Record} :
      DoneMono l l' → DoneMono (rec :: l) l'

theorem DoneMono.rfl : ∀ l : List Record, DoneMono l l
  | [] => .nil
  | _ :: l => .keep id (DoneMono.rfl l)

theorem DoneMono.trans {a b c : List Record} (h1 : DoneMono a b) (h2 : DoneMono b c) :
    DoneMono a c := by
  induction h1 generalizing c with
  | nil => exact h2
  | keep himp h1' ih =>
    cases h2 with
    | keep himp2 h2' => exact .keep (fun hd => himp2 (himp hd)) (ih h2')
    | drop h2' => exact .drop (ih h2')
  | drop h1' ih => exact .drop (ih h2)

theorem DoneMono.removeFirst (rs : List Record) (name : String) :
    DoneMono rs (Records.removeFirst rs name) := by
  induction rs with
  | nil => exact .nil
  | cons rec rest ih =>
    simp only [Records.removeFirst]
    split
    · exact .drop (DoneMono.rfl rest)
    · exact .keep id ih

theorem DoneMono.updateFirst (name : String) (f : Record → Heap → Record × Heap)
    (hf : ∀ rec h, rec.done = true → ((f rec h).1).done = true) :
    ∀ (rs : List Record) (h : Heap), DoneMono rs (Records.updateFirst name f rs h).1 := by
  intro rs
  induction rs with
  | nil => intro h; exact .nil
  | cons rec rest ih =>
    intro h
    simp only [Records.updateFirst]
    split
    · exact .keep (hf rec h) (DoneMono.rfl rest)
    · exact .keep id (ih h)

theorem DoneMono.set : ∀ (rs : List Record) (i : Nat) (rec0 rec' : Record),
    rs[i]? = some rec0 → (rec0.done = true → rec'.done = true) →
    DoneMono rs (rs.set i rec')
  | [], i, rec0, rec', hg, _ => by simp at hg
  | r :: rest, 0, rec0, rec', hg, himp => by
    simp only [List.getElem?_cons_zero, Option.some.injEq] at hg
    subst hg
    exact .keep himp (DoneMono.rfl rest)
  | r :: rest, i + 1, rec0, rec', hg, himp => by
    simp only [List.getElem?_cons_succ] at hg
    exact .keep id (DoneMono.set rest i rec0 rec' hg himp)

theorem doneMono_foldl {α : Type} (step : List Record → α → List Record)
    (hstep : ∀ rs a, DoneMono rs (step rs a)) :
    ∀ (items : List α) (rs : List Record), DoneMono rs (items.foldl step rs)
  | [], rs => DoneMono.rfl rs
  | a :: rest, rs =>
    DoneMono.trans (hstep rs a) (doneMono_foldl step hstep rest (step rs a))

theorem doneMono_foldlSt {α : Type}
    (step : (List Record × Heap) → α → (List Record × Heap))
    (hstep : ∀ st a, DoneMono st.1 (step st a).1) :
    ∀ (items : List α) (st : List Record × Heap), DoneMono st.1 (items.foldl step st).1
  | [], st => DoneMono.rfl st.1
  | a :: rest, st =>
    DoneMono.trans (hstep st a) (doneMono_foldlSt step hstep rest (step st a))

theorem mark_done_doneMonoFn (rec : Record) (h : Heap) :
    rec.done = true → ((Record.mark_done rec h).1).done = true :=
  fun _ => rfl

theorem modify_done (rec : Record) (specs : List String) (h : Heap) :
    ((Record.modify rec specs h).1).done = rec.done :=
  (modFold_spec specs [] rec).1.1

theorem doneMono_mutAt (rs : List Record) (h : Heap) (i : Nat)
    (f : Record → Heap → Record × Heap)
    (hf : ∀ rec h, rec.done = true → ((f rec h).1).done = true) :
    DoneMono rs (mutAt rs h i f).1 := by
  unfold mutAt
  cases hg : rs[i]? with
  | none => exact DoneMono.rfl rs
  | some rec => exact DoneMono.set rs i rec _ hg (hf rec h)

theorem doneMono_applyOp (st : List Record × Heap) (op : Op) :
    DoneMono st.1 (applyOp st op).1 := by
  cases op with
  | removeAll items =>
    apply doneMono_foldl
    intro rs item
    split
    · exact DoneMono.rfl rs
    · split
      · exact DoneMono.rfl rs
      · exact DoneMono.removeFirst rs _
  | markDoneAll items =>
    apply doneMono_foldlSt
    intro st' item
    split
    · exact DoneMono.rfl st'.1
    · exact DoneMono.updateFirst _ _ mark_done_doneMonoFn st'.1 st'.2
  | modifyAll items =>
    apply doneMono_foldlSt
    intro st' item
    exact DoneMono.updateFirst _ _
      (fun rec h hd => by rw [modify_done]; exact hd) st'.1 st'.2
  | markDoneAt i => exact doneMono_mutAt st.1 st.2 i _ mark_done_doneMonoFn
  | modifyAt i specs =>
    exact doneMono_mutAt st.1 st.2 i _ (fun rec h hd => by rw [modify_done]; exact hd)

/-- C5: `done` is monotonic.  `check` never accepts the key `done`, so
`modify` can never change `done` (only `mark_done` sets it), and across any
sequence of `remove_all`, `mark_done_all`, `modify_all` and direct
`mark_done` / `modify` calls, every surviving record that had `done = true`
still has it. -/
theorem done_monotonic :
    (∀ s kv, Record.check s = some kv → kv.1 ≠ "done") ∧
    (∀ rec specs h, ((Record.modify rec specs h).1).done = rec.done) ∧
    (∀ rec h, ((Record.mark_done rec h).1).done = true) ∧
    (∀ (st : List Record × Heap) (ops : List Op), DoneMono st.1 (applyOps st ops).1) := by
  refine ⟨?_, modify_done, fun rec h => rfl,
    fun st ops => doneMono_foldlSt applyOp doneMono_applyOp ops st⟩
  intro s kv hc heq
  unfold Record.check at hc
  split at hc
  · next key value hsp =>
    by_cases hmem : schemaDictKeys.contains key = true
    · rw [if_pos hmem] at hc
      cases hc
      simp only [Prod.fst] at heq
      rw [heq] at hmem
      exact absurd hmem (by decide)
    · rw [if_neg hmem] at hc
      cases hc
  · cases hc

/-- Witness for C5: the hypothesis-bearing clause at a concrete spec. -/
theorem done_monotonic_witness :
    ("priority", "major").1 ≠ "done" ∧
    ((Record.mark_done parsedA Heap.start).1).done = true :=
  ⟨done_monotonic.1 "priority:major" ("priority", "major") (by decide),
   done_monotonic.2.2.1 parsedA Heap.start⟩

/-! ### C6: the Date rule -/

/-- Modelled from the spec's words, for comparison with the code's
`Date.check` (C6): the value parses exactly as a calendar date in the format
`YYYY/MM/DD` with a 4-digit year, 2-digit month and 2-digit day separated by
`/`. -/
def dateClaimFormat (s : String) : Bool :=
  match pysplitS '/' s with
  | [ys, ms, ds] =>
    ys.data.all Char.isDigit && (ys.length == 4) &&
    ms.data.all Char.isDigit && (ms.length == 2) &&
    ds.data.all Char.isDigit && (ds.length == 2) &&
    decide (1 ≤ digitsVal ms.data) && decide (digitsVal ms.data ≤ 12) &&
    decide (1 ≤ digitsVal ds.data) &&
    decide (digitsVal ds.data ≤ daysInMonth (digitsVal ys.data) (digitsVal ms.data)) &&
    decide (1 ≤ digitsVal ys.data)
  | _ => false

/-- C6 as stated is false on the code: the Date rule accepts `2024/1/1`,
which is not of the claimed 4/2/2-digit `YYYY/MM/DD` form, because CPython's
strptime `%m` and `%d` also match single-digit months and days. -/
theorem date_rule_claim_counterexample :
    Date.check "2024/1/1" = true ∧ dateClaimFormat "2024/1/1" = false :=
  ⟨rfl, rfl⟩

theorem digit_not_slash {cs : List Char} (hall : cs.all Char.isDigit = true) :
    '/' ∉ cs := by
  intro hmem
  have hd : ('/' : Char).isDigit = true := List.all_eq_true.mp hall _ hmem
  exact absurd hd (by decide)

/-- C6 amended: the Date rule accepts a value iff it decomposes as
`year/month/day` where the year is exactly 4 digits (and at least 1), the
month is 1 or 2 digits with value 1..12, and the day is 1 or 2 digits whose
value is a real day of that month in that year — i.e. strptime's format,
which unlike the claim also allows 1-digit months and days. -/
theorem date_rule_amended (s : String) :
    Date.check s = true ↔
    ∃ ys ms ds : List Char,
      s.data = ys ++ '/' :: (ms ++ '/' :: ds) ∧
      ys.all Char.isDigit = true ∧ ys.length = 4 ∧
      ms.all Char.isDigit = true ∧ (ms.length = 1 ∨ ms.length = 2) ∧
      ds.all Char.isDigit = true ∧ (ds.length = 1 ∨ ds.length = 2) ∧
      1 ≤ digitsVal ms ∧ digitsVal ms ≤ 12 ∧
      1 ≤ digitsVal ds ∧ digitsVal ds ≤ daysInMonth (digitsVal ys) (digitsVal ms) ∧
      1 ≤ digitsVal ys := by
  constructor
  · intro hch
    unfold Date.check pysplitS at hch
    rcases hq : pysplit '/' s.data with _ | ⟨a, _ | ⟨b, _ | ⟨c, _ | ⟨d, rest⟩⟩⟩⟩ <;>
      rw [hq] at hch <;> simp only [List.map] at hch
    · exact absurd hch (by simp)
    · exact absurd hch (by simp)
    · exact absurd hch (by simp)
    · refine ⟨a, b, c, ?_, ?_⟩
      · have hj := pysplit_join '/' s.data
        rw [hq] at hj
        simpa [joinSep] using hj.symm
      · simp only [Bool.and_eq_true, decide_eq_true_eq, beq_iff_eq,
          List.all_eq_true] at hch
        obtain ⟨⟨⟨⟨⟨⟨⟨⟨⟨⟨hya, hyl⟩, hma⟩, hml⟩, hda⟩, hdl⟩, hm1⟩, hm2⟩, hd1⟩, hd2⟩, hy1⟩ := hch
        refine ⟨List.all_eq_true.mpr hya, hyl, List.all_eq_true.mpr hma, ?_,
          List.all_eq_true.mpr hda, ?_, hm1, hm2, hd1, hd2, hy1⟩
        · simpa using hml
        · simpa using hdl
    · exact absurd hch (by simp)
  · rintro ⟨ys, ms, ds, hdata, hya, hyl, hma, hml, hda, hdl, hm1, hm2, hd1, hd2, hy1⟩
    have hys : '/' ∉ ys := digit_not_slash hya
    have hms : '/' ∉ ms := digit_not_slash hma
    have hds : '/' ∉ ds := digit_not_slash hda
    have hq : pysplit '/' s.data = [ys, ms, ds] := by
      rw [hdata, pysplit_append _ hys, pysplit_append _ hms, pysplit_of_not_mem hds]
    unfold Date.check pysplitS
    rw [hq]
    simp only [List.map, Bool.and_eq_true, decide_eq_true_eq, beq_iff_eq,
      List.all_eq_true]
    refine ⟨⟨⟨⟨⟨⟨⟨⟨⟨⟨fun c hc => List.all_eq_true.mp hya c hc, hyl⟩,
      fun c hc => List.all_eq_true.mp hma c hc⟩, ?_⟩,
      fun c hc => List.all_eq_true.mp hda c hc⟩, ?_⟩, hm1⟩, hm2⟩, hd1⟩, hd2⟩, hy1⟩
    · simpa using hml
    · simpa using hdl

/-! ### C8: change-history rendering -/

theorem value_before_spec (mods : List Entry) (orig : Entry) (key : String) :
    ∀ i : Nat, Record.value_before mods orig key i =
      Option.or
        (((mods.take i).reverse).findSome? (fun e =>
          match Entry.get e key with
          | some v => if Val.truthy v then some v else none
          | none => none))
        (Entry.get orig key)
  | 0 => by simp [Record.value_before, Option.or]
  | n + 1 => by
    have ih := value_before_spec mods orig key n
    cases hn : mods[n]? with
    | some e =>
      have hgd : mods.getD n [] = e := by simp [List.getD, hn]
      rw [Record.value_before, hgd]
      rw [List.take_succ, hn]
      simp only [Option.toList, List.reverse_append, List.reverse_cons,
        List.reverse_nil, List.nil_append, List.cons_append, List.findSome?_cons]
      cases hg : Entry.get e key with
      | none => simpa [hg] using ih
      | some v =>
        cases ht : Val.truthy v with
        | false => simpa [hg, ht] using ih
        | true => simp [hg, ht, Option.or]
    | none =>
      have hgd : mods.getD n [] = [] := by simp [List.getD, hn]
      rw [Record.value_before, hgd]
      rw [List.take_succ, hn]
      simpa [Entry.get, List.find?] using ih

theorem value_before_append (mods : List Entry) (e : Entry) (orig : Entry)
    (key : String) : ∀ i : Nat, i ≤ mods.length →
    Record.value_before (mods ++ [e]) orig key i = Record.value_before mods orig key i
  | 0, _ => rfl
  | n + 1, hle => by
    have hn : n < mods.length := by omega
    have hgd : (mods ++ [e]).getD n [] = mods.getD n [] := by
      simp [List.getD, List.getElem?_append_left hn]
    rw [Record.value_before, Record.value_before, hgd,
      value_before_append mods e orig key n (by omega)]

/-- C8: in change-history rendering, entries are visited newest to oldest —
rendering a log extended by one entry prints that entry's fields first, each
`after` being the value stored in the entry and each `before` being
`_value_before` at the strictly earlier entries — and `_value_before` resolves
to the first non-empty (truthy) value for the field scanning earlier entries
most-recent-first, falling back to the `original` snapshot; the
`{priority: minor}`-original example renders exactly as claimed. -/
theorem change_history_rendering :
    (∀ (mods : List Entry) (e : Entry) (orig : Entry),
      Record.print_changes (mods ++ [e]) orig =
        e.map (fun kv =>
          (kv.1, Record.value_before (mods ++ [e]) orig kv.1 mods.length, kv.2)) ++
        Record.print_changes mods orig) ∧
    (∀ (mods : List Entry) (orig : Entry) (key : String) (i : Nat),
      Record.value_before mods orig key i =
        Option.or
          (((mods.take i).reverse).findSome? (fun e =>
            match Entry.get e key with
            | some v => if Val.truthy v then some v else none
            | none => none))
          (Entry.get orig key)) ∧
    Record.print_changes
        [[("priority", Val.str "major")], [("due_date", Val.str "2024/02/02")]]
        (Record.mkOriginal "a" "2024/01/01" "minor" false) =
      [("due_date", some (Val.str "2024/01/01"), Val.str "2024/02/02"),
       ("priority", some (Val.str "minor"), Val.str "major")] := by
  refine ⟨?_, fun mods orig key i => value_before_spec mods orig key i, rfl⟩
  intro mods e orig
  unfold Record.print_changes
  rw [List.length_append, List.length_cons, List.length_nil, List.range_succ,
    List.reverse_append]
  simp only [List.reverse_cons, List.reverse_nil, List.nil_append,
    List.cons_append, List.map_cons, List.flatten_cons]
  have hlast : (mods ++ [e]).getD mods.length [] = e := by
    simp [List.getD, List.getElem?_append_right (Nat.le_refl mods.length)]
  rw [hlast]
  congr 1
  apply congrArg
  apply List.map_congr_left
  intro i hi
  have hilt : i < mods.length := by
    rw [List.mem_reverse, List.mem_range] at hi
    exact hi
  have hgd : (mods ++ [e]).getD i [] = mods.getD i [] := by
    simp [List.getD, List.getElem?_append_left hilt]
  rw [hgd]
  apply List.map_congr_left
  intro kv _
  rw [value_before_append mods e orig kv.1 i (Nat.le_of_lt hilt)]

/-! ### C9: `remove_all` -/

theorem pysplitS_len1 {s : String} (h1 : (pysplitS ';' s).length = 1) :
    pysplitS ';' s = [s] := by
  unfold pysplitS at h1 ⊢
  rcases hq : pysplit ';' s.data with _ | ⟨a, _ | ⟨b, t⟩⟩
  · exact absurd hq (pysplit_ne_nil ';' s.data)
  · have hj := pysplit_join ';' s.data
    rw [hq] at hj
    simp only [joinSep] at hj
    subst hj
    rfl
  · simp [hq] at h1

theorem find_first (name : String) (pre : List Record) (rec : Record)
    (post : List Record) (hname : rec.name = name)
    (hpre : ∀ r ∈ pre, r.name ≠ name) :
    Records.find (pre ++ rec :: post) name = some rec := by
  induction pre with
  | nil => simp [Records.find, List.find?, hname]
  | cons r pre' ih =>
    have hr : ¬ (r.name = name) := hpre r (List.mem_cons_self r pre')
    simpa [Records.find, List.find?, hr] using
      ih (fun r' h' => hpre r' (List.mem_cons_of_mem _ h'))

theorem removeFirst_eq (name : String) (pre : List Record) (rec : Record)
    (post : List Record) (hname : rec.name = name)
    (hpre : ∀ r ∈ pre, r.name ≠ name) :
    Records.removeFirst (pre ++ rec :: post) name = pre ++ post := by
  induction pre with
  | nil => simp [Records.removeFirst, hname]
  | cons r pre' ih =>
    have hr : ¬ (r.name = name) := hpre r (List.mem_cons_self r pre')
    simpa [Records.removeFirst, hr] using
      ih (fun r' h' => hpre r' (List.mem_cons_of_mem _ h'))

/-- C9: `remove_all` silently skips any spec splitting into 2 or more
segments on `;` (in particular `remove_all(["a;b"])` is a no-op), and for a
single-segment spec removes exactly the first record with that name, leaving
the earlier records and everything after the removed one unchanged, and doing
nothing when no record matches. -/
theorem remove_all_spec :
    (∀ rs item, 2 ≤ (pysplitS ';' item).length → Records.remove_all rs [item] = rs) ∧
    (∀ rs (name : String), (pysplitS ';' name).length = 1 →
      ((∀ rec ∈ rs, rec.name ≠ name) → Records.remove_all rs [name] = rs) ∧
      (∀ pre rec post, rs = pre ++ rec :: post → rec.name = name →
        (∀ r ∈ pre, r.name ≠ name) →
        Records.remove_all rs [name] = pre ++ post)) ∧
    (∀ rs, Records.remove_all rs ["a;b"] = rs) := by
  have hskip : ∀ rs item, 2 ≤ (pysplitS ';' item).length →
      Records.remove_all rs [item] = rs := by
    intro rs item hlen
    have hsplit : Records.split item (some 1) = none := by
      unfold Records.split
      simp only []
      rw [if_neg (by omega)]
    simp [Records.remove_all, hsplit]
  refine ⟨hskip, ?_, fun rs => hskip rs "a;b" (by decide)⟩
  intro rs name hlen
  have hsp1 : pysplitS ';' name = [name] := pysplitS_len1 hlen
  have hsplit : Records.split name (some 1) = some [name] := by
    unfold Records.split
    rw [hsp1]
    simp
  constructor
  · intro hnone
    have hfind : Records.find rs name = none := by
      simp only [Records.find, List.find?_eq_none]
      intro rec hrec
      simpa using hnone rec hrec
    simp [Records.remove_all, hsplit, hfind]
  · intro pre rec post hrs hname hpre
    subst hrs
    have hfind := find_first name pre rec post hname hpre
    simp [Records.remove_all, hsplit, hfind, removeFirst_eq name pre rec post hname hpre]

/-- Witness for C9: removing by a concrete name and a concrete two-segment
no-op spec. -/
theorem remove_all_spec_witness :
    Records.remove_all [parsedA, parsedB] ["a"] = [] ++ [parsedB] ∧
    Records.remove_all [parsedA] ["a;b"] = [parsedA] :=
  ⟨(remove_all_spec.2.1 [parsedA, parsedB] "a" (by decide)).2 [] parsedA [parsedB]
      rfl rfl (by simp),
   remove_all_spec.1 [parsedA] "a;b" (by decide)⟩

/-! ### C10: `add_all` propagates the first `SchemaError` -/

theorem parse_ok_heap (item : String) (h : Heap) (rh : Record × Heap)
    (hok : Record.parse item h = .ok rh) : rh.2 = h := by
  rcases hq : pysplitS ';' item with _ | ⟨n, _ | ⟨d, _ | ⟨p, _ | ⟨x, t⟩⟩⟩⟩
  · rw [parse_of_badlen item h (by rw [hq]; simp)] at hok; cases hok
  · rw [parse_of_badlen item h (by rw [hq]; simp)] at hok; cases hok
  · rw [parse_of_badlen item h (by rw [hq]; simp)] at hok; cases hok
  · rw [parse_of_split3 item h n d p hq] at hok
    split_ifs at hok <;> cases hok <;> rfl
  · rw [parse_of_badlen item h (by rw [hq]; simp)] at hok; cases hok

/-- C10: `add_all` parses and appends its lines in order; when one line fails
validation, the records parsed from the earlier lines remain appended (no
rollback), the `SchemaError` escapes, and no later line is processed. -/
theorem add_all_aborts (rs : List Record) (h : Heap) (pre : List String)
    (bad : String) (rest : List String) (e : String)
    (hpre : ∀ item ∈ pre, (Record.parse item h).isOk = true)
    (hbad : Record.parse bad h = .error e) :
    Records.add_all rs h (pre ++ bad :: rest) =
      ((rs ++ pre.filterMap (fun item => (Record.parse item h).toOption.map Prod.fst),
        h), some e) := by
  revert hpre
  induction pre generalizing rs with
  | nil =>
    intro _
    simp [Records.add_all, hbad]
  | cons p pre' ih =>
    intro hpre
    have hp := hpre p (List.mem_cons_self p pre')
    cases hok : Record.parse p h with
    | error err => rw [hok] at hp; simp [Except.isOk, Except.toBool] at hp
    | ok rh =>
      have hh : rh.2 = h := parse_ok_heap p h rh hok
      simp only [List.cons_append, Records.add_all, hok, List.append_eq]
      rw [hh, ih (rs ++ [rh.1]) (fun item hit => hpre item (List.mem_cons_of_mem _ hit))]
      simp [hok, List.filterMap_cons, Except.toOption]

/-- Witness for C10: a concrete batch whose second line is invalid. -/
theorem add_all_aborts_witness :
    Records.add_all [] Heap.start
        (["a;2024/01/01;minor"] ++ "x;y" :: ["b;2024/01/02;major"]) =
      (([] ++ ["a;2024/01/01;minor"].filterMap
          (fun item => (Record.parse item Heap.start).toOption.map Prod.fst),
        Heap.start), some "Item does not fit schema: x;y") :=
  add_all_aborts [] Heap.start ["a;2024/01/01;minor"] "x;y" ["b;2024/01/02;major"]
    "Item does not fit schema: x;y" (by decide) rfl

end Todos
